import Mathlib

/-!
# Ring-resonator transmission model: verification development

Shallow embedding of the numeric core of `ring_resonator.py`
(`RingResonatorAnimation`): the closed-form ring-resonator transmission
function (`transmission_function`, lines 234-242), the hardcoded physical
parameters (`construct`, lines 11-17), the dB conversion of the sampled
spectrum (line 259) and the resonance-peak detection
(`scipy.signal.find_peaks(-transmission_dB, height=5, distance=20)`,
lines 313-314).

Machine floats are modelled by real numbers (for the closed-form optics
formulas) and by rationals (for the sampled spectrum fed to peak
detection; every float value is a rational, and peak detection only
compares and subtracts sample values).
-/

/-- The physical parameters fixed in `RingResonatorAnimation.construct`
(lines 11-17): effective index `n_eff`, round-trip length `L`,
self-coupling `r`, round-trip amplitude `a` and the center wavelength. -/
structure ResonatorParameters where
  n_eff : ℝ
  L : ℝ
  r : ℝ
  a : ℝ
  lambda_center : ℝ

/-- Line 236: round-trip phase `phi = 2 * pi * n_eff * L / wavelength`. -/
noncomputable def round_trip_phase (p : ResonatorParameters) (wavelength : ℝ) : ℝ :=
  2 * Real.pi * p.n_eff * p.L / wavelength

/-- Line 239: `numerator = a**2 - 2*a*r*cos(phi) + r**2`. -/
noncomputable def transmission_numerator (r a phi : ℝ) : ℝ :=
  a ^ 2 - 2 * a * r * Real.cos phi + r ^ 2

/-- Line 240: `denominator = 1 - 2*a*r*cos(phi) + (a*r)**2`. -/
noncomputable def transmission_denominator (r a phi : ℝ) : ℝ :=
  1 - 2 * a * r * Real.cos phi + (a * r) ^ 2

/-- Lines 239-242 as a function of the round-trip phase:
`T(phi) = numerator / denominator`. -/
noncomputable def transmission_phi (r a phi : ℝ) : ℝ :=
  transmission_numerator r a phi / transmission_denominator r a phi

/-- `transmission_function` (lines 234-242): phase from the wavelength,
then the transfer-function value.  The division is written exactly as in
the source, unguarded. -/
noncomputable def transmission_function (p : ResonatorParameters) (wavelength : ℝ) : ℝ :=
  transmission_phi p.r p.a (round_trip_phase p wavelength)

/-- Fallible model of the same unguarded division: float division faults
(NaN / ZeroDivisionError) when the denominator is zero, so the result is
`none` there and `some (numerator / denominator)` otherwise.  The source
has no branch at all; this model makes the fault visible. -/
noncomputable def transmission_function_checked (p : ResonatorParameters)
    (wavelength : ℝ) : Option ℝ :=
  if transmission_denominator p.r p.a (round_trip_phase p wavelength) = 0 then none
  else some (transmission_phi p.r p.a (round_trip_phase p wavelength))

/-- Line 13: `ring_radius = 10e-6`. -/
noncomputable def ring_radius : ℝ := 10e-6

/-- The parameter record built in `construct` (lines 12-17):
`n_eff = 2.4`, `L = 2 * pi * ring_radius`, `r = 0.9`, `a = 0.95`,
`lambda_center = 1550e-9`. -/
noncomputable def animationParams : ResonatorParameters :=
  ⟨2.4, 2 * Real.pi * ring_radius, 0.9, 0.95, 1550e-9⟩

/-- Line 259, per sample: the argument handed to `log10` is the
transmission value plus the offset `1e-10`. -/
noncomputable def dB_argument (t : ℝ) : ℝ := t + 1e-10

/-- Line 259, per sample: `10 * log10(transmission + 1e-10)`. -/
noncomputable def to_dB (t : ℝ) : ℝ := 10 * Real.logb 10 (dB_argument t)

/-- A fixed concrete parameter record used by witnesses. -/
noncomputable def testParams : ResonatorParameters := ⟨1, 1, 1/2, 1/2, 1⟩

section TransmissionBounds

/-- The denominator is at least `(1 - a*r)^2` whenever `a*r` is
non-negative: `denominator - (1 - a*r)^2 = 2*a*r*(1 - cos phi) >= 0`. -/
lemma denominator_lower (r a phi : ℝ) (h : 0 ≤ a * r) :
    (1 - a * r) ^ 2 ≤ transmission_denominator r a phi := by
  have h1 : Real.cos phi ≤ 1 := Real.cos_le_one phi
  unfold transmission_denominator
  nlinarith [mul_nonneg h (sub_nonneg.2 h1)]

/-- The denominator is strictly positive for `r, a` in `[0, 1)`. -/
lemma denominator_pos (r a phi : ℝ) (hr0 : 0 ≤ r) (hr1 : r < 1)
    (ha0 : 0 ≤ a) (ha1 : a < 1) :
    0 < transmission_denominator r a phi := by
  have har : a * r < 1 := by nlinarith
  have h0 : (0:ℝ) < (1 - a * r) ^ 2 := pow_pos (by linarith) 2
  exact lt_of_lt_of_le h0 (denominator_lower r a phi (mul_nonneg ha0 hr0))

/-- The numerator is non-negative:
`numerator = (a - r*cos phi)^2 + r^2*(1 - cos phi^2) >= 0`. -/
lemma numerator_nonneg (r a phi : ℝ) :
    0 ≤ transmission_numerator r a phi := by
  have hc1 : Real.cos phi ≤ 1 := Real.cos_le_one phi
  have hc2 : -1 ≤ Real.cos phi := Real.neg_one_le_cos phi
  have hsq : Real.cos phi ^ 2 ≤ 1 := by nlinarith
  unfold transmission_numerator
  nlinarith [sq_nonneg (a - r * Real.cos phi),
    mul_nonneg (sq_nonneg r) (sub_nonneg.2 hsq)]

/-- `denominator - numerator = (1 - a^2) * (1 - r^2) >= 0` for
`r, a` in `[0, 1]`. -/
lemma numerator_le_denominator (r a phi : ℝ) (hr0 : 0 ≤ r) (hr1 : r ≤ 1)
    (ha0 : 0 ≤ a) (ha1 : a ≤ 1) :
    transmission_numerator r a phi ≤ transmission_denominator r a phi := by
  unfold transmission_numerator transmission_denominator
  nlinarith [mul_nonneg (by nlinarith : (0:ℝ) ≤ 1 - a ^ 2)
    (by nlinarith : (0:ℝ) ≤ 1 - r ^ 2)]

end TransmissionBounds

/-- C1: for every wavelength `lam > 0`, the transmission function computes
the round-trip phase `phi = 2*pi*n_eff*L/lam` and returns exactly
`(a^2 - 2*a*r*cos(phi) + r^2) / (1 - 2*a*r*cos(phi) + (a*r)^2)`. -/
theorem C1_transmission_formula (p : ResonatorParameters) (lam : ℝ) (hlam : 0 < lam) :
    transmission_function p lam =
      (p.a ^ 2 - 2 * p.a * p.r * Real.cos (2 * Real.pi * p.n_eff * p.L / lam) + p.r ^ 2) /
        (1 - 2 * p.a * p.r * Real.cos (2 * Real.pi * p.n_eff * p.L / lam) + (p.a * p.r) ^ 2) :=
  rfl

/-- Witness for C1 at the concrete record `testParams` and wavelength 1. -/
theorem C1_transmission_formula_witness :
    transmission_function testParams 1 =
      (testParams.a ^ 2 - 2 * testParams.a * testParams.r *
          Real.cos (2 * Real.pi * testParams.n_eff * testParams.L / 1) + testParams.r ^ 2) /
        (1 - 2 * testParams.a * testParams.r *
          Real.cos (2 * Real.pi * testParams.n_eff * testParams.L / 1) +
          (testParams.a * testParams.r) ^ 2) :=
  C1_transmission_formula testParams 1 (by norm_num)

/-- C2: for every wavelength `lam > 0`, positive `n_eff` and `L`, and
`r, a` in `[0, 1)`, the transmission value lies in `[0, 1]`. -/
theorem C2_transmission_in_unit_interval (p : ResonatorParameters) (lam : ℝ)
    (hlam : 0 < lam) (hn : 0 < p.n_eff) (hL : 0 < p.L)
    (hr0 : 0 ≤ p.r) (hr1 : p.r < 1) (ha0 : 0 ≤ p.a) (ha1 : p.a < 1) :
    0 ≤ transmission_function p lam ∧ transmission_function p lam ≤ 1 := by
  have hD := denominator_pos p.r p.a (round_trip_phase p lam) hr0 hr1 ha0 ha1
  have hN := numerator_nonneg p.r p.a (round_trip_phase p lam)
  have hND := numerator_le_denominator p.r p.a (round_trip_phase p lam)
    hr0 hr1.le ha0 ha1.le
  unfold transmission_function transmission_phi
  exact ⟨div_nonneg hN hD.le, (div_le_one hD).2 hND⟩

/-- Witness for C2 at `testParams` (`r = a = 1/2`) and wavelength 1. -/
theorem C2_transmission_in_unit_interval_witness :
    0 ≤ transmission_function testParams 1 ∧ transmission_function testParams 1 ≤ 1 :=
  C2_transmission_in_unit_interval testParams 1 (by norm_num)
    (by norm_num [testParams]) (by norm_num [testParams]) (by norm_num [testParams])
    (by norm_num [testParams]) (by norm_num [testParams]) (by norm_num [testParams])

/-- C3 (code bug): on the degenerate input `a*r = 1` with resonance phase
(here `r = a = 1`, `n_eff = L = 1`, wavelength 1, so `phi = 2*pi` and
`cos phi = 1`), the denominator written at line 240 is exactly 0, and the
division at line 242 is performed unguarded: the fallible model returns
`none` (NumPy evaluates `0/0` to NaN), not the fallback 0 the spec
mandates.  There is no guard branch anywhere in `transmission_function`. -/
theorem C3_denominator_zero_unguarded :
    transmission_denominator (1 : ℝ) 1 (round_trip_phase ⟨1, 1, 1, 1, 1⟩ 1) = 0 ∧
    transmission_function_checked ⟨1, 1, 1, 1, 1⟩ 1 = none := by
  have hph : round_trip_phase ⟨1, 1, 1, 1, 1⟩ 1 = 2 * Real.pi := by
    unfold round_trip_phase
    norm_num
  have hd : transmission_denominator (1 : ℝ) 1 (round_trip_phase ⟨1, 1, 1, 1, 1⟩ 1) = 0 := by
    rw [hph]
    unfold transmission_denominator
    rw [Real.cos_two_pi]
    ring
  exact ⟨hd, by simp [transmission_function_checked, hd]⟩

/-- C4 counterexample: at the out-of-range input `r = 2` (with `a = 0`,
`n_eff = L = 1`, wavelength 1) the transmission function does not fail
with any error: it silently returns the numeric value 4 (which is not
even in `[0, 1]`), and even the fallible division model returns a value
rather than a fault. -/
theorem C4_counterexample_no_error :
    transmission_function ⟨1, 1, 2, 0, 1⟩ 1 = 4 ∧
    transmission_function_checked ⟨1, 1, 2, 0, 1⟩ 1 = some 4 := by
  have hnum : transmission_numerator (2 : ℝ) 0 (round_trip_phase ⟨1, 1, 2, 0, 1⟩ 1) = 4 := by
    unfold transmission_numerator
    ring
  have hden : transmission_denominator (2 : ℝ) 0 (round_trip_phase ⟨1, 1, 2, 0, 1⟩ 1) = 1 := by
    unfold transmission_denominator
    ring
  have hT : transmission_function ⟨1, 1, 2, 0, 1⟩ 1 = 4 := by
    unfold transmission_function transmission_phi
    rw [show (⟨1, 1, 2, 0, 1⟩ : ResonatorParameters).r = 2 from rfl,
      show (⟨1, 1, 2, 0, 1⟩ : ResonatorParameters).a = 0 from rfl, hnum, hden]
    norm_num
  refine ⟨hT, ?_⟩
  unfold transmission_function_checked
  rw [show (⟨1, 1, 2, 0, 1⟩ : ResonatorParameters).r = 2 from rfl,
    show (⟨1, 1, 2, 0, 1⟩ : ResonatorParameters).a = 0 from rfl, hden]
  rw [if_neg (by norm_num)]
  unfold transmission_phi
  rw [hnum, hden]
  norm_num

/-- C4 amended: the transmission function performs no input validation:
on every out-of-range input (negative wavelength, or `r` outside `[0,1]`,
or `a` outside `[0,1]`) it still returns the numeric value of the
closed-form formula; no InvalidParameter error path exists. -/
theorem C4_amended_no_validation (p : ResonatorParameters) (lam : ℝ)
    (h : lam < 0 ∨ p.r < 0 ∨ 1 < p.r ∨ p.a < 0 ∨ 1 < p.a) :
    transmission_function p lam =
      transmission_numerator p.r p.a (round_trip_phase p lam) /
        transmission_denominator p.r p.a (round_trip_phase p lam) :=
  rfl

/-- Witness for the amended C4 at the out-of-range input `r = 2`. -/
theorem C4_amended_no_validation_witness :
    transmission_function ⟨1, 1, 2, 0, 1⟩ 1 =
      transmission_numerator (2 : ℝ) 0 (round_trip_phase ⟨1, 1, 2, 0, 1⟩ 1) /
        transmission_denominator (2 : ℝ) 0 (round_trip_phase ⟨1, 1, 2, 0, 1⟩ 1) :=
  C4_amended_no_validation ⟨1, 1, 2, 0, 1⟩ 1
    (Or.inr (Or.inr (Or.inl (by norm_num))))

/-- C6: for `r, a` in `[0, 1)`, the transmission at a phase that is an
integer multiple of `2*pi` is a global minimum: for every integer `m` and
every phase `phi'`, `T(2*pi*m) <= T(phi')`. -/
theorem C6_resonance_phase_global_min (r a : ℝ) (hr0 : 0 ≤ r) (hr1 : r < 1)
    (ha0 : 0 ≤ a) (ha1 : a < 1) (m : ℤ) (phi' : ℝ) :
    transmission_phi r a (2 * Real.pi * m) ≤ transmission_phi r a phi' := by
  have hcos : Real.cos (2 * Real.pi * m) = 1 := by
    rw [show (2 * Real.pi * (m : ℝ)) = (m : ℝ) * (2 * Real.pi) by ring,
      Real.cos_int_mul_two_pi]
  have hD1 : transmission_denominator r a (2 * Real.pi * m) = (1 - a * r) ^ 2 := by
    unfold transmission_denominator
    rw [hcos]
    ring
  have hN1 : transmission_numerator r a (2 * Real.pi * m) = (a - r) ^ 2 := by
    unfold transmission_numerator
    rw [hcos]
    ring
  have hDpos1 : 0 < transmission_denominator r a (2 * Real.pi * m) :=
    denominator_pos r a _ hr0 hr1 ha0 ha1
  have hDpos' : 0 < transmission_denominator r a phi' :=
    denominator_pos r a _ hr0 hr1 ha0 ha1
  unfold transmission_phi
  rw [div_le_div_iff₀ hDpos1 hDpos']
  have hc1 : Real.cos phi' ≤ 1 := Real.cos_le_one phi'
  have key : 0 ≤ 2 * a * r * (1 - Real.cos phi') * ((1 - a ^ 2) * (1 - r ^ 2)) := by
    apply mul_nonneg
    · apply mul_nonneg
      · nlinarith
      · linarith
    · apply mul_nonneg
      · nlinarith
      · nlinarith
  rw [hN1, hD1]
  unfold transmission_numerator transmission_denominator
  nlinarith [key]

/-- Witness for C6 at `r = a = 1/2`, `m = 0`, `phi' = 0`. -/
theorem C6_resonance_phase_global_min_witness :
    transmission_phi (1/2 : ℝ) (1/2) (2 * Real.pi * (0 : ℤ)) ≤
      transmission_phi (1/2 : ℝ) (1/2) 0 :=
  C6_resonance_phase_global_min (1/2) (1/2) (by norm_num) (by norm_num)
    (by norm_num) (by norm_num) 0 0

/-- C7: at critical coupling `r = a` in `[0, 1)`, the transmission at an
exact resonance phase `phi = 2*pi*m` equals 0. -/
theorem C7_critical_coupling_zero (r : ℝ) (hr0 : 0 ≤ r) (hr1 : r < 1) (m : ℤ) :
    transmission_phi r r (2 * Real.pi * m) = 0 := by
  have hcos : Real.cos (2 * Real.pi * m) = 1 := by
    rw [show (2 * Real.pi * (m : ℝ)) = (m : ℝ) * (2 * Real.pi) by ring,
      Real.cos_int_mul_two_pi]
  have hN : transmission_numerator r r (2 * Real.pi * m) = 0 := by
    unfold transmission_numerator
    rw [hcos]
    ring
  unfold transmission_phi
  rw [hN, zero_div]

/-- Witness for C7 at `r = a = 1/2`, `m = 1`. -/
theorem C7_critical_coupling_zero_witness :
    transmission_phi (1/2 : ℝ) (1/2) (2 * Real.pi * (1 : ℤ)) = 0 :=
  C7_critical_coupling_zero (1/2) (by norm_num) (by norm_num) 1

/-- C8: the transmission is periodic in the round-trip phase with period
`2*pi`: `T(phi + 2*pi) = T(phi)` for every `r`, `a` and `phi`. -/
theorem C8_periodic_in_phase (r a phi : ℝ) :
    transmission_phi r a (phi + 2 * Real.pi) = transmission_phi r a phi := by
  unfold transmission_phi transmission_numerator transmission_denominator
  rw [Real.cos_add_two_pi]

/-- C9: with the program's hardcoded parameters `r = 0.9`, `a = 0.95`
(so `a*r = 0.855`), the denominator is bounded below by
`(1 - a*r)^2 > 0` for every wavelength `lam > 0`: the unguarded division
never divides by zero at any call site of this program, and the fallible
division model always returns a value. -/
theorem C9_denominator_never_zero (lam : ℝ) (hlam : 0 < lam) :
    (1 - animationParams.a * animationParams.r) ^ 2 ≤
      transmission_denominator animationParams.r animationParams.a
        (round_trip_phase animationParams lam) ∧
    0 < transmission_denominator animationParams.r animationParams.a
        (round_trip_phase animationParams lam) ∧
    transmission_function_checked animationParams lam =
      some (transmission_function animationParams lam) := by
  have har : (0 : ℝ) ≤ animationParams.a * animationParams.r := by
    norm_num [animationParams]
  have hlow := denominator_lower animationParams.r animationParams.a
    (round_trip_phase animationParams lam) har
  have hsq : (0 : ℝ) < (1 - animationParams.a * animationParams.r) ^ 2 := by
    norm_num [animationParams]
  have hpos := lt_of_lt_of_le hsq hlow
  refine ⟨hlow, hpos, ?_⟩
  unfold transmission_function_checked
  rw [if_neg hpos.ne']
  rfl

/-- Witness for C9 at wavelength 1. -/
theorem C9_denominator_never_zero_witness :
    (1 - animationParams.a * animationParams.r) ^ 2 ≤
      transmission_denominator animationParams.r animationParams.a
        (round_trip_phase animationParams 1) ∧
    0 < transmission_denominator animationParams.r animationParams.a
        (round_trip_phase animationParams 1) ∧
    transmission_function_checked animationParams 1 =
      some (transmission_function animationParams 1) :=
  C9_denominator_never_zero 1 (by norm_num)

/-- C10: the dB conversion at line 259 adds the offset `1e-10` before
`log10`, so for every non-negative transmission sample the logarithm's
argument is strictly positive (never log of zero or of a negative
number). -/
theorem C10_dB_argument_positive (t : ℝ) (ht : 0 ≤ t) :
    0 < dB_argument t ∧ to_dB t = 10 * Real.logb 10 (t + 1e-10) := by
  constructor
  · unfold dB_argument
    have : (0 : ℝ) < 1e-10 := by norm_num
    linarith
  · rfl

/-- Witness for C10 at the sample value 0. -/
theorem C10_dB_argument_positive_witness :
    0 < dB_argument 0 ∧ to_dB 0 = 10 * Real.logb 10 (0 + 1e-10) :=
  C10_dB_argument_positive 0 le_rfl

/-!
## Resonance-peak detection (lines 313-314)

The source calls `scipy.signal.find_peaks(-transmission_dB, height=5,
distance=20)`.  The embedding below follows scipy's documented algorithm:
`_local_maxima_1d` (a scan for strict local maxima, a flat plateau
contributing its midpoint), then the `height` filter (keep samples with
value at least the threshold), then `_select_by_peak_distance` (walk the
candidates from highest to lowest sample value; each still-kept candidate
removes every other candidate closer than `distance` indices).  The
sample array is a list of rationals: every machine float is a rational
and the algorithm only compares sample values. -/

/-- Inner while loop of scipy `_local_maxima_1d`: starting at `j`,
advance while `j < iMax` and `x[j] = v`; returns the first index past the
plateau of value `v`. -/
def plateau_end (x : List ℚ) (v : ℚ) (iMax : ℕ) (j : ℕ) : ℕ :=
  if h : j < iMax ∧ x.getD j 0 = v then plateau_end x v iMax (j + 1) else j
termination_by iMax - j
decreasing_by exact Nat.sub_succ_lt_self iMax j h.1

/-- The plateau scan never moves left. -/
lemma le_plateau_end (x : List ℚ) (v : ℚ) (iMax : ℕ) (j : ℕ) :
    j ≤ plateau_end x v iMax j := by
  unfold plateau_end
  split
  next h => exact le_trans (Nat.le_succ j) (le_plateau_end x v iMax (j + 1))
  next h => exact le_rfl
termination_by iMax - j
decreasing_by
  rename_i h
  exact Nat.sub_succ_lt_self iMax j h.1

/-- Outer loop of scipy `_local_maxima_1d` over `i` (with
`iMax = length - 1`): a candidate peak starts where the value strictly
rises (`x[i-1] < x[i]`); its plateau ends at `j = plateau_end`; if the
value strictly falls there (`x[j] < x[i]`), the plateau midpoint
`(i + (j-1)) / 2` is recorded and the scan resumes at `j + 1`. -/
def local_maxima_aux (x : List ℚ) (iMax : ℕ) (i : ℕ) : List ℕ :=
  if hi : i < iMax then
    if x.getD (i - 1) 0 < x.getD i 0 then
      if x.getD (plateau_end x (x.getD i 0) iMax (i + 1)) 0 < x.getD i 0 then
        (i + (plateau_end x (x.getD i 0) iMax (i + 1) - 1)) / 2 ::
          local_maxima_aux x iMax (plateau_end x (x.getD i 0) iMax (i + 1) + 1)
      else
        local_maxima_aux x iMax (i + 1)
    else
      local_maxima_aux x iMax (i + 1)
  else
    []
termination_by iMax - i
decreasing_by
  · have hj : i + 1 ≤ plateau_end x (x.getD i 0) iMax (i + 1) := le_plateau_end x _ iMax (i + 1)
    omega
  · omega
  · omega

/-- The candidate local maxima of a sample list (scipy
`_local_maxima_1d`): scan starts at index 1 and stops before the last
index. -/
def local_maxima (x : List ℚ) : List ℕ :=
  local_maxima_aux x (x.length - 1) 1

/-- Index distance between two sample positions. -/
def peak_distance (p q : ℕ) : ℕ := max p q - min p q

/-- scipy `_select_by_peak_distance`: process candidate positions in the
given order; a position still kept removes every other position whose
peak lies closer than `d` indices.  `peaks` lists the candidate sample
indices, positions index into `peaks`. -/
def select_go (peaks : List ℕ) (d : ℕ) : List ℕ → (ℕ → Bool) → ℕ → Bool
  | [], keep => keep
  | j :: rest, keep =>
    if keep j then
      select_go peaks d rest fun k =>
        if k ≠ j ∧ peak_distance (peaks.getD k 0) (peaks.getD j 0) < d then false
        else keep k
    else
      select_go peaks d rest keep

/-- Insert a position into a list sorted by descending priority. -/
def insert_desc (prio : ℕ → ℚ) (j : ℕ) : List ℕ → List ℕ
  | [] => [j]
  | k :: rest => if prio k ≤ prio j then j :: k :: rest else k :: insert_desc prio j rest

/-- The positions `0, ..., n-1` sorted by descending priority (the order
in which scipy's `argsort`-driven loop visits the candidates, highest
peak first). -/
def priority_order (prio : ℕ → ℚ) (n : ℕ) : List ℕ :=
  List.foldr (insert_desc prio) [] (List.range n)

/-- The kept candidates, in their original (ascending) order: the
boolean mask from `select_go` applied over the candidate positions. -/
def select_result (cands : List ℕ) (d : ℕ) (ord : List ℕ) : List ℕ :=
  ((List.range cands.length).filter (select_go cands d ord fun _ => true)).map
    fun j => cands.getD j 0

/-- The `height=...` filter of scipy `find_peaks`: keep the candidates
whose sample value is at least the threshold. -/
def height_filtered (x : List ℚ) (height : ℚ) : List ℕ :=
  (local_maxima x).filter fun p => decide (height ≤ x.getD p 0)

/-- `scipy.signal.find_peaks(x, height, distance)` as called at line 314:
candidate local maxima, then the height filter, then distance
selection in descending order of peak value. -/
def find_peaks (x : List ℚ) (height : ℚ) (d : ℕ) : List ℕ :=
  select_result (height_filtered x height) d
    (priority_order (fun j => x.getD ((height_filtered x height).getD j 0) 0)
      (height_filtered x height).length)

/-- Line 314: `find_peaks(-transmission_dB, height=5, distance=20)` on
the sampled dB spectrum. -/
def detect_resonances (tdB : List ℚ) : List ℕ :=
  find_peaks (tdB.map fun v => -v) 5 20

/-- The wavelength sampled at index `i` (line 254:
`np.linspace(1540e-9, 1560e-9, 1000)`, step `(1560-1540)e-9 / 999`). -/
def lambda_range_val (i : ℕ) : ℚ :=
  1540 / 10 ^ 9 + (1560 / 10 ^ 9 - 1540 / 10 ^ 9) / 999 * i

/-- What the scan records: `p` sits on a plateau (possibly of width one)
whose value strictly exceeds both the sample just left of the plateau
and a sample strictly right of `p`; on the negated dB spectrum this is a
local minimum of transmission. -/
def IsLocalMaxPoint (x : List ℚ) (p : ℕ) : Prop :=
  ∃ l rr, 1 ≤ l ∧ l ≤ p ∧ p < rr ∧ rr < x.length ∧
    x.getD p 0 = x.getD l 0 ∧ x.getD (l - 1) 0 < x.getD l 0 ∧ x.getD rr 0 < x.getD l 0

section PeakLemmas

/-- The plateau scan stays within `max iMax j`. -/
lemma plateau_end_le_max (x : List ℚ) (v : ℚ) (iMax : ℕ) (j : ℕ) :
    plateau_end x v iMax j ≤ max iMax j := by
  induction j using plateau_end.induct x v iMax with
  | case1 j h ih =>
    rw [plateau_end, dif_pos h]
    have := h.1
    omega
  | case2 j h =>
    rw [plateau_end, dif_neg h]
    omega

/-- Every sample on the scanned plateau has the plateau value. -/
lemma plateau_end_values (x : List ℚ) (v : ℚ) (iMax : ℕ) (j : ℕ) :
    ∀ t, j ≤ t → t < plateau_end x v iMax j → x.getD t 0 = v := by
  induction j using plateau_end.induct x v iMax with
  | case1 j h ih =>
    intro t hjt htlt
    rw [plateau_end, dif_pos h] at htlt
    rcases eq_or_lt_of_le hjt with rfl | hlt
    · exact h.2
    · exact ih t hlt htlt
  | case2 j h =>
    intro t hjt htlt
    rw [plateau_end, dif_neg h] at htlt
    omega

/-- Every recorded candidate lies at or right of the scan position. -/
lemma local_maxima_aux_lb (x : List ℚ) (iMax : ℕ) :
    ∀ i, ∀ e ∈ local_maxima_aux x iMax i, i ≤ e := by
  intro i
  induction i using local_maxima_aux.induct x iMax with
  | case1 i hlt hrise hfall ih =>
    intro e he
    rw [local_maxima_aux, dif_pos hlt, if_pos hrise, if_pos hfall] at he
    have hj : i + 1 ≤ plateau_end x (x.getD i 0) iMax (i + 1) :=
      le_plateau_end x _ iMax (i + 1)
    rcases List.mem_cons.1 he with rfl | he'
    · omega
    · have := ih e he'
      omega
  | case2 i hlt hrise hfall ih =>
    intro e he
    rw [local_maxima_aux, dif_pos hlt, if_pos hrise, if_neg hfall] at he
    have := ih e he
    omega
  | case3 i hlt hrise ih =>
    intro e he
    rw [local_maxima_aux, dif_pos hlt, if_neg hrise] at he
    have := ih e he
    omega
  | case4 i hlt =>
    intro e he
    rw [local_maxima_aux, dif_neg hlt] at he
    simp at he

/-- The candidate list is strictly increasing. -/
lemma local_maxima_aux_pairwise (x : List ℚ) (iMax : ℕ) :
    ∀ i, List.Pairwise (· < ·) (local_maxima_aux x iMax i) := by
  intro i
  induction i using local_maxima_aux.induct x iMax with
  | case1 i hlt hrise hfall ih =>
    rw [local_maxima_aux, dif_pos hlt, if_pos hrise, if_pos hfall]
    refine List.Pairwise.cons ?_ ih
    intro e he
    have h1 := local_maxima_aux_lb x iMax _ e he
    have hj : i + 1 ≤ plateau_end x (x.getD i 0) iMax (i + 1) :=
      le_plateau_end x _ iMax (i + 1)
    omega
  | case2 i hlt hrise hfall ih =>
    rw [local_maxima_aux, dif_pos hlt, if_pos hrise, if_neg hfall]
    exact ih
  | case3 i hlt hrise ih =>
    rw [local_maxima_aux, dif_pos hlt, if_neg hrise]
    exact ih
  | case4 i hlt =>
    rw [local_maxima_aux, dif_neg hlt]
    exact List.Pairwise.nil

/-- The candidate sample indices are strictly increasing. -/
lemma local_maxima_pairwise (x : List ℚ) :
    List.Pairwise (· < ·) (local_maxima x) :=
  local_maxima_aux_pairwise x (x.length - 1) 1

/-- Every recorded candidate is a genuine plateau local maximum. -/
lemma local_maxima_aux_isMax (x : List ℚ) (iMax : ℕ) (hMax : iMax < x.length) :
    ∀ i, 1 ≤ i → ∀ p ∈ local_maxima_aux x iMax i, IsLocalMaxPoint x p := by
  intro i
  induction i using local_maxima_aux.induct x iMax with
  | case1 i hlt hrise hfall ih =>
    intro hi1 p hp
    rw [local_maxima_aux, dif_pos hlt, if_pos hrise, if_pos hfall] at hp
    have hj1 : i + 1 ≤ plateau_end x (x.getD i 0) iMax (i + 1) :=
      le_plateau_end x _ iMax (i + 1)
    have hj2 : plateau_end x (x.getD i 0) iMax (i + 1) ≤ max iMax (i + 1) :=
      plateau_end_le_max x _ iMax (i + 1)
    rcases List.mem_cons.1 hp with rfl | hp'
    · refine ⟨i, plateau_end x (x.getD i 0) iMax (i + 1), hi1, by omega, by omega,
        by omega, ?_, hrise, hfall⟩
      rcases Nat.lt_or_ge ((i + (plateau_end x (x.getD i 0) iMax (i + 1) - 1)) / 2)
        (i + 1) with hcase | hcase
      · have hpi : (i + (plateau_end x (x.getD i 0) iMax (i + 1) - 1)) / 2 = i := by omega
        rw [hpi]
      · exact plateau_end_values x _ iMax (i + 1) _ hcase (by omega)
    · exact ih (by omega) p hp'
  | case2 i hlt hrise hfall ih =>
    intro hi1 p hp
    rw [local_maxima_aux, dif_pos hlt, if_pos hrise, if_neg hfall] at hp
    exact ih (by omega) p hp
  | case3 i hlt hrise ih =>
    intro hi1 p hp
    rw [local_maxima_aux, dif_pos hlt, if_neg hrise] at hp
    exact ih (by omega) p hp
  | case4 i hlt =>
    intro hi1 p hp
    rw [local_maxima_aux, dif_neg hlt] at hp
    simp at hp

/-- Every candidate of `local_maxima` is a plateau local maximum. -/
lemma local_maxima_isMax (x : List ℚ) :
    ∀ p ∈ local_maxima x, IsLocalMaxPoint x p := by
  unfold local_maxima
  rcases Nat.eq_zero_or_pos x.length with h0 | hpos
  · intro p hp
    rw [h0] at hp
    rw [local_maxima_aux, dif_neg (by omega)] at hp
    simp at hp
  · exact local_maxima_aux_isMax x (x.length - 1) (by omega) 1 le_rfl

end PeakLemmas

section SelectLemmas

lemma peak_distance_comm (p q : ℕ) : peak_distance p q = peak_distance q p := by
  unfold peak_distance
  omega

/-- `select_go` only removes: a finally kept position was kept at the
start. -/
lemma select_go_mono (P : List ℕ) (d : ℕ) :
    ∀ (ord : List ℕ) (keep : ℕ → Bool) (j : ℕ),
      select_go P d ord keep j = true → keep j = true := by
  intro ord
  induction ord with
  | nil =>
    intro keep j h
    exact h
  | cons e rest ih =>
    intro keep j h
    simp only [select_go] at h
    by_cases hke : keep e = true
    · rw [if_pos hke] at h
      have h2 : (if j ≠ e ∧ peak_distance (P.getD j 0) (P.getD e 0) < d then false
          else keep j) = true := ih _ j h
      by_cases hc : j ≠ e ∧ peak_distance (P.getD j 0) (P.getD e 0) < d
      · rw [if_pos hc] at h2
        exact absurd h2 (by simp)
      · rwa [if_neg hc] at h2
    · rw [if_neg hke] at h
      exact ih keep j h

/-- Once a processed position is kept and all its close neighbours are
removed, this stays so to the end of the pass. -/
lemma select_go_inv (P : List ℕ) (d : ℕ) (e : ℕ) :
    ∀ (ord : List ℕ) (keep : ℕ → Bool),
      keep e = true →
      (∀ k, k ≠ e → peak_distance (P.getD k 0) (P.getD e 0) < d → keep k = false) →
      select_go P d ord keep e = true ∧
        ∀ k, k ≠ e → peak_distance (P.getD k 0) (P.getD e 0) < d →
          select_go P d ord keep k = false := by
  intro ord
  induction ord with
  | nil =>
    intro keep h1 h2
    exact ⟨h1, h2⟩
  | cons j rest ih =>
    intro keep h1 h2
    simp only [select_go]
    by_cases hkj : keep j = true
    · rw [if_pos hkj]
      have h1' : (if e ≠ j ∧ peak_distance (P.getD e 0) (P.getD j 0) < d then false
          else keep e) = true := by
        by_cases hc : e ≠ j ∧ peak_distance (P.getD e 0) (P.getD j 0) < d
        · exfalso
          have hdj : peak_distance (P.getD j 0) (P.getD e 0) < d := by
            rw [peak_distance_comm]
            exact hc.2
          have hjf : keep j = false := h2 j (Ne.symm hc.1) hdj
          rw [hjf] at hkj
          exact absurd hkj (by simp)
        · rw [if_neg hc]
          exact h1
      have h2' : ∀ k, k ≠ e → peak_distance (P.getD k 0) (P.getD e 0) < d →
          (if k ≠ j ∧ peak_distance (P.getD k 0) (P.getD j 0) < d then false
            else keep k) = false := by
        intro k hk hdist
        by_cases hc : k ≠ j ∧ peak_distance (P.getD k 0) (P.getD j 0) < d
        · rw [if_pos hc]
        · rw [if_neg hc]
          exact h2 k hk hdist
      exact ih _ h1' h2'
    · rw [if_neg hkj]
      exact ih keep h1 h2

/-- Two distinct positions closer than `d` are never both kept. -/
lemma select_go_not_both (P : List ℕ) (d : ℕ) :
    ∀ (ord : List ℕ) (keep : ℕ → Bool) (j k : ℕ),
      j ∈ ord → k ∈ ord → j ≠ k →
      peak_distance (P.getD j 0) (P.getD k 0) < d →
      ¬(select_go P d ord keep j = true ∧ select_go P d ord keep k = true) := by
  intro ord
  induction ord with
  | nil =>
    intro keep j k hj
    simp at hj
  | cons e rest ih =>
    intro keep j k hj hk hne hdist hboth
    obtain ⟨hj1, hk1⟩ := hboth
    simp only [select_go] at hj1 hk1
    by_cases hke : keep e = true
    · rw [if_pos hke] at hj1 hk1
      by_cases hej : e = j
      · subst hej
        have hkk : (if k ≠ e ∧ peak_distance (P.getD k 0) (P.getD e 0) < d then false
            else keep k) = true := select_go_mono P d rest _ k hk1
        have hck : k ≠ e ∧ peak_distance (P.getD k 0) (P.getD e 0) < d := by
          refine ⟨Ne.symm hne, ?_⟩
          rw [peak_distance_comm]
          exact hdist
        rw [if_pos hck] at hkk
        exact absurd hkk (by simp)
      · by_cases hek : e = k
        · subst hek
          have hjj : (if j ≠ e ∧ peak_distance (P.getD j 0) (P.getD e 0) < d then false
              else keep j) = true := select_go_mono P d rest _ j hj1
          have hcj : j ≠ e ∧ peak_distance (P.getD j 0) (P.getD e 0) < d := ⟨hne, hdist⟩
          rw [if_pos hcj] at hjj
          exact absurd hjj (by simp)
        · have hjr : j ∈ rest := by
            rcases List.mem_cons.1 hj with h | h
            · exact absurd h.symm hej
            · exact h
          have hkr : k ∈ rest := by
            rcases List.mem_cons.1 hk with h | h
            · exact absurd h.symm hek
            · exact h
          exact ih _ j k hjr hkr hne hdist ⟨hj1, hk1⟩
    · rw [if_neg hke] at hj1 hk1
      by_cases hej : j = e
      · subst hej
        exact hke (select_go_mono P d rest keep j hj1)
      · by_cases hek : k = e
        · subst hek
          exact hke (select_go_mono P d rest keep k hk1)
        · have hjr : j ∈ rest := by
            rcases List.mem_cons.1 hj with h | h
            · exact absurd h hej
            · exact h
          have hkr : k ∈ rest := by
            rcases List.mem_cons.1 hk with h | h
            · exact absurd h hek
            · exact h
          exact ih keep j k hjr hkr hne hdist ⟨hj1, hk1⟩

/-- A position removed during the pass was removed by a position that is
itself kept at the end of the pass, closer than `d`. -/
lemma select_go_removed (P : List ℕ) (d : ℕ) :
    ∀ (ord : List ℕ) (keep : ℕ → Bool) (q : ℕ),
      keep q = true → select_go P d ord keep q = false →
      ∃ j, j ∈ ord ∧ j ≠ q ∧ peak_distance (P.getD j 0) (P.getD q 0) < d ∧
        select_go P d ord keep j = true := by
  intro ord
  induction ord with
  | nil =>
    intro keep q hq hfin
    simp only [select_go] at hfin
    rw [hfin] at hq
    exact absurd hq (by simp)
  | cons e rest ih =>
    intro keep q hq hfin
    simp only [select_go] at hfin ⊢
    by_cases hke : keep e = true
    · rw [if_pos hke] at hfin ⊢
      by_cases hq' : (if q ≠ e ∧ peak_distance (P.getD q 0) (P.getD e 0) < d then false
          else keep q) = true
      · obtain ⟨j, hjm, hjne, hjd, hjkeep⟩ := ih _ q hq' hfin
        exact ⟨j, List.mem_cons_of_mem e hjm, hjne, hjd, hjkeep⟩
      · have hcond : q ≠ e ∧ peak_distance (P.getD q 0) (P.getD e 0) < d := by
          by_contra hc
          exact hq' (by rw [if_neg hc]; exact hq)
        have h1' : (if e ≠ e ∧ peak_distance (P.getD e 0) (P.getD e 0) < d then false
            else keep e) = true := by
          rw [if_neg (by simp)]
          exact hke
        have h2' : ∀ k, k ≠ e → peak_distance (P.getD k 0) (P.getD e 0) < d →
            (if k ≠ e ∧ peak_distance (P.getD k 0) (P.getD e 0) < d then false
              else keep k) = false := by
          intro k hk hdist
          rw [if_pos ⟨hk, hdist⟩]
        have hinv := select_go_inv P d e rest
          (fun k => if k ≠ e ∧ peak_distance (P.getD k 0) (P.getD e 0) < d then false
            else keep k) h1' h2'
        refine ⟨e, List.mem_cons_self e rest, Ne.symm hcond.1, ?_, hinv.1⟩
        rw [peak_distance_comm]
        exact hcond.2
    · rw [if_neg hke] at hfin ⊢
      obtain ⟨j, hjm, hjne, hjd, hjkeep⟩ := ih keep q hq hfin
      exact ⟨j, List.mem_cons_of_mem e hjm, hjne, hjd, hjkeep⟩

end SelectLemmas

section ResultLemmas

lemma mem_insert_desc (prio : ℕ → ℚ) (j k : ℕ) :
    ∀ l : List ℕ, (k ∈ insert_desc prio j l ↔ k = j ∨ k ∈ l) := by
  intro l
  induction l with
  | nil => simp [insert_desc]
  | cons a t ih =>
    simp only [insert_desc]
    split
    · simp [List.mem_cons]
    · rw [List.mem_cons, ih, List.mem_cons]
      tauto

/-- The processing order visits exactly the positions `0, ..., n-1`. -/
lemma mem_priority_order (prio : ℕ → ℚ) (n : ℕ) (k : ℕ) :
    k ∈ priority_order prio n ↔ k < n := by
  unfold priority_order
  have key : ∀ l : List ℕ, k ∈ List.foldr (insert_desc prio) [] l ↔ k ∈ l := by
    intro l
    induction l with
    | nil => simp
    | cons a t ih => rw [List.foldr_cons, mem_insert_desc, ih, List.mem_cons]
  rw [key, List.mem_range]

/-- Membership in the selection output, by position. -/
lemma mem_select_result (cands : List ℕ) (d : ℕ) (ord : List ℕ) (p : ℕ) :
    p ∈ select_result cands d ord ↔
      ∃ j, j < cands.length ∧ select_go cands d ord (fun _ => true) j = true ∧
        cands.getD j 0 = p := by
  unfold select_result
  simp only [List.mem_map, List.mem_filter, List.mem_range]
  constructor
  · rintro ⟨j, ⟨hj, hkeep⟩, rfl⟩
    exact ⟨j, hj, hkeep, rfl⟩
  · rintro ⟨j, hj, hkeep, rfl⟩
    exact ⟨j, ⟨hj, hkeep⟩, rfl⟩

lemma getD_lt_of_pairwise (c : List ℕ) (hc : List.Pairwise (· < ·) c) (i j : ℕ)
    (hi : i < c.length) (hj : j < c.length) (hij : i < j) :
    c.getD i 0 < c.getD j 0 := by
  rw [List.getD_eq_getElem c 0 hi, List.getD_eq_getElem c 0 hj]
  exact List.pairwise_iff_get.1 hc ⟨i, hi⟩ ⟨j, hj⟩ hij

lemma pairwise_map_getD (c : List ℕ) (hc : List.Pairwise (· < ·) c) :
    ∀ l : List ℕ, List.Pairwise (· < ·) l → (∀ j ∈ l, j < c.length) →
      List.Pairwise (· < ·) (l.map fun j => c.getD j 0) := by
  intro l
  induction l with
  | nil =>
    intro _ _
    simp
  | cons a t ih =>
    intro hl hmem
    rw [List.map_cons]
    rw [List.pairwise_cons] at hl
    refine List.Pairwise.cons ?_ (ih hl.2 fun j hj => hmem j (List.mem_cons_of_mem a hj))
    intro b hb
    obtain ⟨jb, hjb, rfl⟩ := List.mem_map.1 hb
    exact getD_lt_of_pairwise c hc a jb (hmem a (List.mem_cons_self a t))
      (hmem jb (List.mem_cons_of_mem a hjb)) (hl.1 jb hjb)

lemma mem_height_filtered (x : List ℚ) (height : ℚ) (p : ℕ) :
    p ∈ height_filtered x height ↔ p ∈ local_maxima x ∧ height ≤ x.getD p 0 := by
  rw [height_filtered, List.mem_filter]
  simp

/-- Every returned peak is a height-passing candidate local maximum. -/
lemma find_peaks_mem (x : List ℚ) (height : ℚ) (d : ℕ) (p : ℕ) :
    p ∈ find_peaks x height d → p ∈ local_maxima x ∧ height ≤ x.getD p 0 := by
  intro hp
  unfold find_peaks at hp
  rw [mem_select_result] at hp
  obtain ⟨j, hj, hkeep, rfl⟩ := hp
  have hmem : (height_filtered x height).getD j 0 ∈ height_filtered x height := by
    rw [List.getD_eq_getElem _ _ hj]
    exact List.getElem_mem hj
  exact (mem_height_filtered x height _).1 hmem

/-- Two distinct returned peaks are at least `d` indices apart. -/
lemma find_peaks_sep (x : List ℚ) (height : ℚ) (d : ℕ) (p q : ℕ)
    (hp : p ∈ find_peaks x height d) (hq : q ∈ find_peaks x height d)
    (hne : p ≠ q) : d ≤ peak_distance p q := by
  unfold find_peaks at hp hq
  rw [mem_select_result] at hp hq
  obtain ⟨j, hj, hkj, rfl⟩ := hp
  obtain ⟨k, hk, hkk, hkq⟩ := hq
  by_contra hlt
  push_neg at hlt
  have hjk : j ≠ k := by
    rintro rfl
    exact hne hkq
  rw [← hkq] at hlt
  have hjo : j ∈ priority_order
      (fun j => x.getD ((height_filtered x height).getD j 0) 0)
      (height_filtered x height).length := (mem_priority_order _ _ j).2 hj
  have hko : k ∈ priority_order
      (fun j => x.getD ((height_filtered x height).getD j 0) 0)
      (height_filtered x height).length := (mem_priority_order _ _ k).2 hk
  exact select_go_not_both (height_filtered x height) d _ (fun _ => true) j k
    hjo hko hjk hlt ⟨hkj, hkk⟩

/-- Every height-passing candidate at distance at least `d` from all
returned peaks is itself returned. -/
lemma find_peaks_complete (x : List ℚ) (height : ℚ) (d : ℕ) (q : ℕ)
    (hq : q ∈ local_maxima x) (hheight : height ≤ x.getD q 0)
    (hfar : ∀ p ∈ find_peaks x height d, p = q ∨ d ≤ peak_distance p q) :
    q ∈ find_peaks x height d := by
  have hqC : q ∈ height_filtered x height :=
    (mem_height_filtered x height q).2 ⟨hq, hheight⟩
  obtain ⟨⟨jq, hjq⟩, hget⟩ := List.mem_iff_get.1 hqC
  have hqd : (height_filtered x height).getD jq 0 = q := by
    rw [List.getD_eq_getElem _ _ hjq]
    exact hget
  unfold find_peaks
  rw [mem_select_result]
  refine ⟨jq, hjq, ?_, hqd⟩
  by_contra hnot
  rw [Bool.not_eq_true] at hnot
  obtain ⟨j', hj'mem, hj'ne, hj'dist, hj'keep⟩ :=
    select_go_removed (height_filtered x height) d _ (fun _ => true) jq rfl hnot
  have hj'lt : j' < (height_filtered x height).length :=
    (mem_priority_order _ _ j').1 hj'mem
  have hp' : (height_filtered x height).getD j' 0 ∈ find_peaks x height d := by
    unfold find_peaks
    rw [mem_select_result]
    exact ⟨j', hj'lt, hj'keep, rfl⟩
  have hpairC : List.Pairwise (· < ·) (height_filtered x height) :=
    (local_maxima_pairwise x).filter _
  rcases hfar _ hp' with heq | hfar2
  · rw [hqd] at hj'dist
    have hne' : (height_filtered x height).getD j' 0 ≠ q := by
      rw [← hqd]
      rcases Nat.lt_or_ge j' jq with hlt | hge
      · exact Nat.ne_of_lt (getD_lt_of_pairwise _ hpairC j' jq hj'lt hjq hlt)
      · have : jq < j' := by omega
        exact (Nat.ne_of_lt (getD_lt_of_pairwise _ hpairC jq j' hjq hj'lt this)).symm
    exact hne' heq
  · rw [hqd] at hj'dist
    omega

/-- The returned peak indices are strictly increasing. -/
lemma find_peaks_sorted (x : List ℚ) (height : ℚ) (d : ℕ) :
    List.Pairwise (· < ·) (find_peaks x height d) := by
  unfold find_peaks select_result
  have hpairC : List.Pairwise (· < ·) (height_filtered x height) :=
    (local_maxima_pairwise x).filter _
  apply pairwise_map_getD _ hpairC
  · exact (List.pairwise_lt_range _).filter _
  · intro j hj
    exact List.mem_range.1 (List.mem_of_mem_filter hj)

/-- The sampled wavelength grid of line 254 is strictly increasing. -/
lemma lambda_range_val_strictMono (i k : ℕ) (h : i < k) :
    lambda_range_val i < lambda_range_val k := by
  unfold lambda_range_val
  have hik : (i : ℚ) < k := by exact_mod_cast h
  have hstep : (0 : ℚ) < (1560 / 10 ^ 9 - 1540 / 10 ^ 9) / 999 := by norm_num
  nlinarith

lemma getD_map_neg (l : List ℚ) (p : ℕ) :
    (l.map fun v => -v).getD p 0 = -l.getD p 0 := by
  rw [List.getD_eq_getElem?_getD, List.getD_eq_getElem?_getD, List.getElem?_map]
  cases l[p]? with
  | none => simp
  | some a => simp

end ResultLemmas

/-- C5: for every sampled dB spectrum, `detect_resonances` (line 314,
`find_peaks(-transmission_dB, height=5, distance=20)`) returns exactly
the sample points that are local minima of the dB spectrum (candidate
plateau maxima of the negated samples) with depth at least 5 dB below 0
and that lie at least 20 samples from every other returned peak: each
returned peak is such a point, any two distinct returned peaks are at
least 20 indices apart, every such point at least 20 indices from all
returned peaks is returned, and the peak sequence is sorted ascending
by index and hence by the (increasing) sampled wavelength of line 254. -/
theorem C5_resonance_detection (tdB : List ℚ) :
    (∀ p ∈ detect_resonances tdB,
      p ∈ local_maxima (tdB.map fun v => -v) ∧
      IsLocalMaxPoint (tdB.map fun v => -v) p ∧
      5 ≤ -tdB.getD p 0) ∧
    (∀ p ∈ detect_resonances tdB, ∀ q ∈ detect_resonances tdB,
      p ≠ q → 20 ≤ peak_distance p q) ∧
    (∀ q ∈ local_maxima (tdB.map fun v => -v), 5 ≤ -tdB.getD q 0 →
      (∀ p ∈ detect_resonances tdB, p = q ∨ 20 ≤ peak_distance p q) →
      q ∈ detect_resonances tdB) ∧
    List.Pairwise (· < ·) (detect_resonances tdB) ∧
    List.Pairwise (fun i k => lambda_range_val i < lambda_range_val k)
      (detect_resonances tdB) := by
  have hx : ∀ p, 5 ≤ (tdB.map fun v => -v).getD p 0 ↔ 5 ≤ -tdB.getD p 0 := by
    intro p
    rw [getD_map_neg]
  refine ⟨?_, ?_, ?_, ?_, ?_⟩
  · intro p hp
    have h := find_peaks_mem (tdB.map fun v => -v) 5 20 p hp
    exact ⟨h.1, local_maxima_isMax _ p h.1, (hx p).1 h.2⟩
  · intro p hp q hq hne
    exact find_peaks_sep (tdB.map fun v => -v) 5 20 p q hp hq hne
  · intro q hq hh hfar
    exact find_peaks_complete (tdB.map fun v => -v) 5 20 q hq ((hx q).2 hh) hfar
  · exact find_peaks_sorted (tdB.map fun v => -v) 5 20
  · exact List.Pairwise.imp (fun hab => lambda_range_val_strictMono _ _ hab)
      (find_peaks_sorted (tdB.map fun v => -v) 5 20)
